import Mathlib

/-!
Verification of the Content Layer Sync Engine specification.

The engine ingests external data through loaders, validates it against
declared schemas, stores it in an in-memory persistable key-value store
keyed by collection and entry id, and keeps the store consistent across
builds via digest-based invalidation.  The data model and operations below
are a shallow embedding of that subsystem; theorems at the end settle the
specification claims.
-/

/-- Modelled from the spec: JSON-like serialized values, the building blocks
of the Persisted Document (the on-disk form of the Mutable Store).  The
implementation file packages/astro/src/content/mutable-data-store.ts is not
in the source tree; only its unit tests are, so the document format is
modelled from the specification text. -/
inductive Json where
  | str (s : String)
  | num (n : Int)
  | bool (b : Bool)
  | arr (xs : List Json)
deriving Repr

mutual

def Json.decEq : (a b : Json) → Decidable (a = b)
  | .str s, .str t =>
      if h : s = t then isTrue (by rw [h]) else isFalse (by intro he; cases he; exact h rfl)
  | .num m, .num n =>
      if h : m = n then isTrue (by rw [h]) else isFalse (by intro he; cases he; exact h rfl)
  | .bool x, .bool y =>
      if h : x = y then isTrue (by rw [h]) else isFalse (by intro he; cases he; exact h rfl)
  | .arr xs, .arr ys =>
      match Json.decEqList xs ys with
      | isTrue h => isTrue (by rw [h])
      | isFalse h => isFalse (by intro he; cases he; exact h rfl)
  | .str _, .num _ => isFalse (fun h => Json.noConfusion h)
  | .str _, .bool _ => isFalse (fun h => Json.noConfusion h)
  | .str _, .arr _ => isFalse (fun h => Json.noConfusion h)
  | .num _, .str _ => isFalse (fun h => Json.noConfusion h)
  | .num _, .bool _ => isFalse (fun h => Json.noConfusion h)
  | .num _, .arr _ => isFalse (fun h => Json.noConfusion h)
  | .bool _, .str _ => isFalse (fun h => Json.noConfusion h)
  | .bool _, .num _ => isFalse (fun h => Json.noConfusion h)
  | .bool _, .arr _ => isFalse (fun h => Json.noConfusion h)
  | .arr _, .str _ => isFalse (fun h => Json.noConfusion h)
  | .arr _, .num _ => isFalse (fun h => Json.noConfusion h)
  | .arr _, .bool _ => isFalse (fun h => Json.noConfusion h)

def Json.decEqList : (a b : List Json) → Decidable (a = b)
  | [], [] => isTrue rfl
  | [], _ :: _ => isFalse (fun h => List.noConfusion h)
  | _ :: _, [] => isFalse (fun h => List.noConfusion h)
  | x :: xs, y :: ys =>
      match Json.decEq x y, Json.decEqList xs ys with
      | isTrue h1, isTrue h2 => isTrue (by rw [h1, h2])
      | isFalse h1, _ => isFalse (by intro he; cases he; exact h1 rfl)
      | _, isFalse h2 => isFalse (by intro he; cases he; exact h2 rfl)

end

instance : DecidableEq Json := Json.decEq

/-- Modelled from the spec: in-memory data values stored in an entry's
`data` mapping.  Rich values include Date instants (kept as epoch
milliseconds) which must survive serialization as dates, not strings. -/
inductive DataValue where
  | str (s : String)
  | num (n : Int)
  | bool (b : Bool)
  | null
  | date (millis : Int)
  | arr (xs : List DataValue)
  | obj (fields : List (String × DataValue))
deriving Repr

mutual

/-- Modelled from the spec: lossless tagged serialization of a data value
into the Persisted Document format.  Dates are tagged so they round-trip as
dates rather than strings. -/
def encodeValue : DataValue → Json
  | .str s => .arr [.str "str", .str s]
  | .num n => .arr [.str "num", .num n]
  | .bool b => .arr [.str "bool", .bool b]
  | .null => .arr [.str "null"]
  | .date m => .arr [.str "date", .num m]
  | .arr xs => .arr (.str "arr" :: encodeValueList xs)
  | .obj fs => .arr (.str "obj" :: encodeValueFields fs)

def encodeValueList : List DataValue → List Json
  | [] => []
  | v :: vs => encodeValue v :: encodeValueList vs

def encodeValueFields : List (String × DataValue) → List Json
  | [] => []
  | (k, v) :: fs => .arr [.str k, encodeValue v] :: encodeValueFields fs

end

mutual

/-- Modelled from the spec: deserialization of a data value from the
Persisted Document format; returns none on a malformed document. -/
def decodeValue : Json → Option DataValue
  | .arr [.str "str", .str s] => some (.str s)
  | .arr [.str "num", .num n] => some (.num n)
  | .arr [.str "bool", .bool b] => some (.bool b)
  | .arr [.str "null"] => some .null
  | .arr [.str "date", .num m] => some (.date m)
  | .arr (.str "arr" :: rest) => (decodeValueList rest).map .arr
  | .arr (.str "obj" :: rest) => (decodeValueFields rest).map .obj
  | _ => none

def decodeValueList : List Json → Option (List DataValue)
  | [] => some []
  | j :: js => do
      let v ← decodeValue j
      let vs ← decodeValueList js
      pure (v :: vs)

def decodeValueFields : List Json → Option (List (String × DataValue))
  | [] => some []
  | .arr [.str k, j] :: js => do
      let v ← decodeValue j
      let vs ← decodeValueFields js
      pure ((k, v) :: vs)
  | _ => none

end

mutual

theorem decode_encode_value : ∀ v : DataValue, decodeValue (encodeValue v) = some v
  | .str s => by simp [encodeValue, decodeValue]
  | .num n => by simp [encodeValue, decodeValue]
  | .bool b => by simp [encodeValue, decodeValue]
  | .null => by simp [encodeValue, decodeValue]
  | .date m => by simp [encodeValue, decodeValue]
  | .arr xs => by
      simp [encodeValue, decodeValue, decode_encode_value_list xs]
  | .obj fs => by
      simp [encodeValue, decodeValue, decode_encode_value_fields fs]

theorem decode_encode_value_list :
    ∀ vs : List DataValue, decodeValueList (encodeValueList vs) = some vs
  | [] => by simp [encodeValueList, decodeValueList]
  | v :: vs => by
      simp [encodeValueList, decodeValueList, decode_encode_value v,
        decode_encode_value_list vs]

theorem decode_encode_value_fields :
    ∀ fs : List (String × DataValue),
      decodeValueFields (encodeValueFields fs) = some fs
  | [] => by simp [encodeValueFields, decodeValueFields]
  | (k, v) :: fs => by
      simp [encodeValueFields, decodeValueFields, decode_encode_value v,
        decode_encode_value_fields fs]

end

theorem encodeValue_injective {a b : DataValue} (h : encodeValue a = encodeValue b) : a = b := by
  have ha := decode_encode_value a
  rw [h, decode_encode_value b] at ha
  exact (Option.some_injective _ ha).symm

instance : DecidableEq DataValue := fun a b =>
  decidable_of_iff (encodeValue a = encodeValue b)
    ⟨encodeValue_injective, fun h => by rw [h]⟩

/-- Modelled from the spec: a single content entry — the atomic unit of
content, with id, schema-validated data, optional raw body and optional
file provenance, plus the deferred-render flag. -/
structure DataEntry where
  id : String
  data : DataValue
  body : Option String := none
  filePath : Option String := none
  deferredRender : Option Bool := none
deriving Repr, DecidableEq

/-- Association-list lookup on string keys, first match wins. -/
def alGet {α : Type} : List (String × α) → String → Option α
  | [], _ => none
  | (k, v) :: rest, key => if k = key then some v else alGet rest key

/-- Association-list insert-or-overwrite: an existing key keeps its position
(matching JS Map.set semantics), a new key is appended at the end. -/
def alSet {α : Type} : List (String × α) → String → α → List (String × α)
  | [], key, v => [(key, v)]
  | (k, w) :: rest, key, v =>
      if k = key then (key, v) :: rest else (k, w) :: alSet rest key v

/-- Association-list removal, no-op when the key is absent. -/
def alRemove {α : Type} : List (String × α) → String → List (String × α)
  | [], _ => []
  | (k, v) :: rest, key => if k = key then rest else (k, v) :: alRemove rest key

theorem alGet_alSet_self {α : Type} (l : List (String × α)) (k : String) (v : α) :
    alGet (alSet l k v) k = some v := by
  induction l with
  | nil => simp [alSet, alGet]
  | cons p rest ih =>
      obtain ⟨k0, w⟩ := p
      by_cases h : k0 = k
      · simp [alSet, alGet, h]
      · simp [alSet, alGet, h, ih]

theorem alGet_alSet_ne {α : Type} (l : List (String × α)) {k k' : String} (v : α)
    (h : k' ≠ k) : alGet (alSet l k v) k' = alGet l k' := by
  induction l with
  | nil => simp [alSet, alGet, Ne.symm h]
  | cons p rest ih =>
      obtain ⟨k0, w⟩ := p
      by_cases h0 : k0 = k
      · subst h0
        simp [alSet, alGet, Ne.symm h]
      · by_cases h1 : k0 = k'
        · simp [alSet, alGet, h0, h1, h]
        · simp [alSet, alGet, h0, h1, ih]

/-- Modelled from the spec: the Mutable Store — an in-memory mapping keyed by
(collection, entry id) to entry records, plus a side metadata map.  The
source file packages/astro/src/content/mutable-data-store.ts is absent from
the tree (only its unit tests are), so the contract of spec section 4.1 is
embedded directly: ordered collections of ordered entries, insertion order
preserved, overwrite keeps an entry's position. -/
structure MutableDataStore where
  collections : List (String × List (String × DataEntry))
  meta : List (String × String)
deriving Repr, DecidableEq

def MutableDataStore.empty : MutableDataStore := ⟨[], []⟩

/-- Modelled from the spec: get(collection, id) returns the entry or absent. -/
def MutableDataStore.get (s : MutableDataStore) (c i : String) : Option DataEntry :=
  (alGet s.collections c).bind fun col => alGet col i

/-- Modelled from the spec: set(collection, id, entry) inserts or overwrites
and returns whether a prior entry with that id existed. -/
def MutableDataStore.set (s : MutableDataStore) (c i : String) (e : DataEntry) :
    MutableDataStore × Bool :=
  let col := (alGet s.collections c).getD []
  let existed := (alGet col i).isSome
  (⟨alSet s.collections c (alSet col i e), s.meta⟩, existed)

/-- Modelled from the spec: delete(collection, id) removes an entry, no-op
if absent. -/
def MutableDataStore.delete (s : MutableDataStore) (c i : String) : MutableDataStore :=
  match alGet s.collections c with
  | none => s
  | some col => ⟨alSet s.collections c (alRemove col i), s.meta⟩

/-- Modelled from the spec: values(collection) returns the entries of a
collection as a point-in-time sequence in insertion order. -/
def MutableDataStore.values (s : MutableDataStore) (c : String) : List DataEntry :=
  ((alGet s.collections c).getD []).map Prod.snd

/-- Modelled from the spec: clear(collection) wipes a single collection. -/
def MutableDataStore.clear (s : MutableDataStore) (c : String) : MutableDataStore :=
  ⟨alRemove s.collections c, s.meta⟩

/-- Modelled from the spec: clearAll() wipes every collection and the
metadata store. -/
def MutableDataStore.clearAll (_ : MutableDataStore) : MutableDataStore :=
  ⟨[], []⟩

/-- Modelled from the spec: read access to the flat metadata mapping exposed
by metaStore(). -/
def MutableDataStore.metaGet (s : MutableDataStore) (k : String) : Option String :=
  alGet s.meta k

/-- Modelled from the spec: write access to the flat metadata mapping exposed
by metaStore(). -/
def MutableDataStore.metaSet (s : MutableDataStore) (k v : String) : MutableDataStore :=
  ⟨s.collections, alSet s.meta k v⟩

def encodeOptStr : Option String → Json
  | none => .arr []
  | some s => .arr [.str s]

def decodeOptStr : Json → Option (Option String)
  | .arr [] => some none
  | .arr [.str s] => some (some s)
  | _ => none

def encodeOptBool : Option Bool → Json
  | none => .arr []
  | some b => .arr [.bool b]

def decodeOptBool : Json → Option (Option Bool)
  | .arr [] => some none
  | .arr [.bool b] => some (some b)
  | _ => none

/-- Modelled from the spec: serialization of one entry record into the
Persisted Document. -/
def encodeEntry (e : DataEntry) : Json :=
  .arr [.str e.id, encodeValue e.data, encodeOptStr e.body, encodeOptStr e.filePath,
    encodeOptBool e.deferredRender]

/-- Modelled from the spec: deserialization of one entry record from the
Persisted Document; none on a malformed record. -/
def decodeEntry : Json → Option DataEntry
  | .arr [.str i, d, b, f, r] => do
      let dv ← decodeValue d
      let bo ← decodeOptStr b
      let fp ← decodeOptStr f
      let dr ← decodeOptBool r
      pure ⟨i, dv, bo, fp, dr⟩
  | _ => none

theorem decode_encode_opt_str (o : Option String) : decodeOptStr (encodeOptStr o) = some o := by
  cases o <;> simp [encodeOptStr, decodeOptStr]

theorem decode_encode_opt_bool (o : Option Bool) : decodeOptBool (encodeOptBool o) = some o := by
  cases o <;> simp [encodeOptBool, decodeOptBool]

theorem decode_encode_entry (e : DataEntry) : decodeEntry (encodeEntry e) = some e := by
  obtain ⟨i, d, b, f, r⟩ := e
  simp [encodeEntry, decodeEntry, decode_encode_value, decode_encode_opt_str,
    decode_encode_opt_bool]

/-- Modelled from the spec: the Persisted Document — an ordered representation
of all collections (each an ordered mapping of entry id to serialized entry)
plus the Metadata Store, written and read as a single artifact. -/
structure PersistedDocument where
  collections : List (String × List (String × Json))
  meta : List (String × String)
deriving Repr, DecidableEq

/-- Modelled from the spec: toDocument() serializes the Mutable Store to the
Persisted Document, preserving collection order and entry order. -/
def MutableDataStore.toDocument (s : MutableDataStore) : PersistedDocument :=
  ⟨s.collections.map (fun p => (p.1, p.2.map (fun q => (q.1, encodeEntry q.2)))), s.meta⟩

def decodeEntries : List (String × Json) → Option (List (String × DataEntry))
  | [] => some []
  | (i, j) :: rest => do
      let e ← decodeEntry j
      let es ← decodeEntries rest
      pure ((i, e) :: es)

def decodeCollections :
    List (String × List (String × Json)) → Option (List (String × List (String × DataEntry)))
  | [] => some []
  | (c, col) :: rest => do
      let es ← decodeEntries col
      let cs ← decodeCollections rest
      pure ((c, es) :: cs)

/-- Modelled from the spec: fromDocument(doc) reconstructs a Store from a
Persisted Document, failing loudly (none) if the document is not valid. -/
def MutableDataStore.fromDocument (doc : PersistedDocument) : Option MutableDataStore :=
  (decodeCollections doc.collections).map fun cs => ⟨cs, doc.meta⟩

theorem decode_encode_entries (l : List (String × DataEntry)) :
    decodeEntries (l.map (fun q => (q.1, encodeEntry q.2))) = some l := by
  induction l with
  | nil => simp [decodeEntries]
  | cons p rest ih =>
      obtain ⟨i, e⟩ := p
      simp [decodeEntries, decode_encode_entry, ih]

theorem decode_encode_collections (l : List (String × List (String × DataEntry))) :
    decodeCollections (l.map (fun p => (p.1, p.2.map (fun q => (q.1, encodeEntry q.2))))) =
      some l := by
  induction l with
  | nil => simp [decodeCollections]
  | cons p rest ih =>
      obtain ⟨c, col⟩ := p
      simp [decodeCollections, decode_encode_entries, ih]

/-- Serialization round-trip: reconstructing a store from its own serialized
document yields the store back exactly. -/
theorem fromDocument_toDocument (s : MutableDataStore) :
    MutableDataStore.fromDocument s.toDocument = some s := by
  simp [MutableDataStore.fromDocument, MutableDataStore.toDocument, decode_encode_collections]

theorem MutableDataStore.get_set_self (s : MutableDataStore) (c i : String) (e : DataEntry) :
    (s.set c i e).1.get c i = some e := by
  simp [MutableDataStore.set, MutableDataStore.get, alGet_alSet_self]

theorem MutableDataStore.set_snd (s : MutableDataStore) (c i : String) (e : DataEntry) :
    (s.set c i e).2 = (s.get c i).isSome := by
  simp only [MutableDataStore.set, MutableDataStore.get]
  cases h : alGet s.collections c <;> simp [h, alGet]

/-- Field lookup inside an entry's data mapping. -/
def DataValue.getField : DataValue → String → Option DataValue
  | .obj fs, f => alGet fs f
  | _, _ => none

/-- C1: for every populated Mutable Store, reconstructing a store from its
serialized Persisted Document (fromDocument of toDocument) yields a store
whose values(collection) equals the originals for every collection and whose
metadata mapping is identical to the originals. -/
theorem roundtrip_preserves_values_and_meta (s : MutableDataStore) :
    ∃ s2 : MutableDataStore,
      MutableDataStore.fromDocument s.toDocument = some s2 ∧
      (∀ c : String, s2.values c = s.values c) ∧
      s2.meta = s.meta :=
  ⟨s, fromDocument_toDocument s, fun _ => rfl, rfl⟩

/-- C7: set(collection, id, entry) inserts or overwrites the entry and
returns a boolean that is true exactly when a prior entry with that id
already existed in that collection. -/
theorem set_inserts_and_reports_prior (s : MutableDataStore) (c i : String) (e : DataEntry) :
    (s.set c i e).1.get c i = some e ∧ (s.set c i e).2 = (s.get c i).isSome :=
  ⟨MutableDataStore.get_set_self s c i e, MutableDataStore.set_snd s c i e⟩

/-- C10: an entry written through store.set whose data contains a Date value
still yields, after serialization and reconstruction of the store, a Date
value denoting the same instant (same epoch milliseconds, hence identical
ISO string) — not a serialized string representation. -/
theorem date_values_survive_storage (s : MutableDataStore) (c i f : String) (e : DataEntry)
    (m : Int) (hdate : e.data.getField f = some (.date m)) :
    ∃ s2 e2, MutableDataStore.fromDocument (s.set c i e).1.toDocument = some s2 ∧
      s2.get c i = some e2 ∧ e2.data.getField f = some (.date m) :=
  ⟨(s.set c i e).1, e, fromDocument_toDocument _, MutableDataStore.get_set_self s c i e, hdate⟩

theorem date_values_survive_storage_witness :
    ∃ s2 e2,
      MutableDataStore.fromDocument
        (MutableDataStore.empty.set "dates" "test-date"
          ⟨"test-date", .obj [("created", .date 1721469600000), ("title", .str "Test")],
            none, none, none⟩).1.toDocument = some s2 ∧
      s2.get "dates" "test-date" = some e2 ∧
      e2.data.getField "created" = some (.date 1721469600000) :=
  date_values_survive_storage MutableDataStore.empty "dates" "test-date" "created"
    ⟨"test-date", .obj [("created", .date 1721469600000), ("title", .str "Test")],
      none, none, none⟩ 1721469600000 (by simp [DataValue.getField, alGet])

/-- Modelled from the spec: the declarative schema descriptor interpreted by
the Schema Validator/Transformer — a tagged variant per field kind, object
fields carrying (name, field schema, optional declared default, optional
flag).  The validator implementation (packages/astro/src/content/ data
transform code) is absent from the tree; only its unit tests are. -/
inductive Schema where
  | sString
  | sNumber
  | sBoolean
  | sDate (coerce : Bool)
  | sReference (collection : String)
  | sArray (inner : Schema)
  | sObject (fields : List (String × Schema × Option DataValue × Bool))
deriving Repr

/-- Modelled from the spec: the typed pointer produced by resolving a schema
field declared as a cross-collection reference. -/
def referenceObject (c i : String) : DataValue :=
  .obj [("collection", .str c), ("id", .str i)]

/-- Days since the Unix epoch for a civil date (Hinnant day-count algorithm). -/
def daysFromCivil (y : Int) (m d : Nat) : Int :=
  let y2 : Int := if m ≤ 2 then y - 1 else y
  let era : Int := (if 0 ≤ y2 then y2 else y2 - 399) / 400
  let yoe : Int := y2 - era * 400
  let mp : Nat := (m + 9) % 12
  let doy : Int := (153 * (mp : Int) + 2) / 5 + (d : Int) - 1
  let doe : Int := yoe * 365 + yoe / 4 - yoe / 100 + doy
  era * 146097 + doe - 719468

/-- Parse of a YYYY-MM-DD date string into epoch milliseconds. -/
def parseISODate (s : String) : Option Int :=
  match (s.splitOn "-").map String.toNat? with
  | [some y, some m, some d] =>
      if 1 ≤ m ∧ m ≤ 12 ∧ 1 ≤ d ∧ d ≤ 31 then
        some (daysFromCivil (Int.ofNat y) m d * 86400000)
      else none
  | _ => none

/-- Dotted error paths: nested validation issues surface with their field
path, matching the itemized per-field error reporting of the validator. -/
def withPath (p : String) (errs : List (String × String)) : List (String × String) :=
  errs.map fun q => (if q.1 = "" then p else p ++ "." ++ q.1, q.2)

mutual

/-- Modelled from the spec: the recursive validator interpreting a schema
descriptor over a raw value — type checks, date coercion, reference
resolution (a raw string becomes a collection/id pointer), element-wise
array resolution, recursive object resolution with dotted error paths, and
defaults applied literally for absent fields. -/
def parseValue (sch : Schema) (v : DataValue) : Except (List (String × String)) DataValue :=
  match sch, v with
  | .sString, .str s => .ok (.str s)
  | .sString, _ => .error [("", "Expected string")]
  | .sNumber, .num n => .ok (.num n)
  | .sNumber, _ => .error [("", "Expected number")]
  | .sBoolean, .bool b => .ok (.bool b)
  | .sBoolean, _ => .error [("", "Expected boolean")]
  | .sDate _, .date m => .ok (.date m)
  | .sDate true, .num n => .ok (.date n)
  | .sDate true, .str s =>
      match parseISODate s with
      | some m => .ok (.date m)
      | none => .error [("", "Invalid date string")]
  | .sDate _, _ => .error [("", "Expected date")]
  | .sReference c, .str i => .ok (referenceObject c i)
  | .sReference _, _ => .error [("", "Expected reference id string")]
  | .sArray inner, .arr xs => (parseValueList inner xs 0).map .arr
  | .sArray _, _ => .error [("", "Expected array")]
  | .sObject fields, .obj inputs => (parseValueFields fields inputs).map .obj
  | .sObject _, _ => .error [("", "Expected object")]
termination_by (sizeOf sch, 0)

/-- Element-wise validation of an array, collecting every element error with
its index as the error path. -/
def parseValueList (inner : Schema) (vs : List DataValue) (idx : Nat) :
    Except (List (String × String)) (List DataValue) :=
  match vs with
  | [] => .ok []
  | v :: rest =>
      match parseValue inner v, parseValueList inner rest (idx + 1) with
      | .ok w, .ok ws => .ok (w :: ws)
      | .error e1, .ok _ => .error (withPath (toString idx) e1)
      | .ok _, .error e2 => .error e2
      | .error e1, .error e2 => .error (withPath (toString idx) e1 ++ e2)
termination_by (sizeOf inner, sizeOf vs)

/-- Field-wise validation of an object against declared fields: a present
field is validated by its field schema; an absent field takes its declared
default literally (the intentional asymmetry: a default is never
transformed); an absent optional field is omitted; an absent required field
is a Required error.  Errors from every field are aggregated. -/
def parseValueFields (fields : List (String × Schema × Option DataValue × Bool))
    (inputs : List (String × DataValue)) :
    Except (List (String × String)) (List (String × DataValue)) :=
  match fields with
  | [] => .ok []
  | (name, fsch, dflt, opt) :: rest =>
      let head : Except (List (String × String)) (List (String × DataValue)) :=
        match alGet inputs name with
        | some v =>
            match parseValue fsch v with
            | .ok w => .ok [(name, w)]
            | .error e => .error (withPath name e)
        | none =>
            match dflt with
            | some d => .ok [(name, d)]
            | none => if opt then .ok [] else .error [(name, "Required")]
      match head, parseValueFields rest inputs with
      | .ok hs, .ok ts => .ok (hs ++ ts)
      | .error e1, .ok _ => .error e1
      | .ok _, .error e2 => .error e2
      | .error e1, .error e2 => .error (e1 ++ e2)
termination_by (sizeOf fields, 0)

end

/-- Modelled from the spec: parseData, bound to a collection's current
schema.  With no declared schema the data passes through unchanged;
otherwise the validator runs and either produces transformed data or a
structured error aggregating all field-level issues. -/
def parseData (sch : Option Schema) (v : DataValue) :
    Except (List (String × String)) DataValue :=
  match sch with
  | none => .ok v
  | some s => parseValue s v

/-- C4: a schema field declared as a reference to a collection parses a raw
string value into the collection/id reference object, but when the field is
absent and carries a declared default string, parseData returns the literal
default string, not a reference object. -/
theorem reference_resolution_default_asymmetry (X v f d : String) :
    parseValue (.sReference X) (.str v) = .ok (referenceObject X v) ∧
    parseData (some (.sObject [(f, .sReference X, some (.str d), false)])) (.obj []) =
      .ok (.obj [(f, .str d)]) ∧
    parseData (some (.sObject [(f, .sReference X, some (.str d), false)]))
        (.obj [(f, .str v)]) =
      .ok (.obj [(f, referenceObject X v)]) := by
  refine ⟨by simp [parseValue], ?_, ?_⟩
  · simp [parseData, parseValue, parseValueFields, alGet, Except.map]
  · simp [parseData, parseValue, parseValueFields, alGet, Except.map]

/-- Log events emitted through the leveled logging sink of a loader's
execution context, labelled with the loader's name. -/
structure LogEvent where
  level : String
  label : String
  message : String
deriving Repr, DecidableEq

/-- Modelled from the spec: the store-mutating and logging effects a loader
issues through its execution context — writes through the scoped store
handle (which supplies the collection implicitly) and leveled log messages. -/
inductive Effect where
  | setEntry (id : String) (entry : DataEntry)
  | delEntry (id : String)
  | logWarn (message : String)
  | logError (message : String)
deriving Repr, DecidableEq

/-- Application of a single loader effect against the shared store and the
log, scoped to collection c and labelled with the loader name. -/
def applyEffect (c lbl : String) (st : MutableDataStore × List LogEvent) (eff : Effect) :
    MutableDataStore × List LogEvent :=
  match eff with
  | .setEntry i e => ((st.1.set c i e).1, st.2)
  | .delEntry i => (st.1.delete c i, st.2)
  | .logWarn m => (st.1, st.2 ++ [⟨"warn", lbl, m⟩])
  | .logError m => (st.1, st.2 ++ [⟨"error", lbl, m⟩])

/-- Store writes are applied in the order the loader issues them. -/
def runEffects (c lbl : String) (effs : List Effect) (st : MutableDataStore × List LogEvent) :
    MutableDataStore × List LogEvent :=
  effs.foldl (applyEffect c lbl) st

/-- Modelled from the spec: one scheduled collection — its name, its loader's
name for log labels, and the effects its loader issues when run. -/
structure CollectionConfig where
  name : String
  loaderName : String
  effects : List Effect
deriving Repr, DecidableEq

/-- Loaders of the scheduled collections run one after another (the work
queue has a concurrency limit of one in-flight loader). -/
def runLoaders (colls : List CollectionConfig) (st : MutableDataStore × List LogEvent) :
    MutableDataStore × List LogEvent :=
  colls.foldl (fun acc cc => runEffects cc.name cc.loaderName cc.effects acc) st

def contentConfigKey : String := "content-config-digest"

def astroConfigKey : String := "astro-config-digest"

/-- Modelled from the spec: the invalidation signal — either recorded digest
differing from the newly computed one (an unrecorded digest counts as a
mismatch). -/
def digestsMismatch (cd ad : String) (s : MutableDataStore) : Bool :=
  (match s.metaGet contentConfigKey with
   | some d => d != cd
   | none => true) ||
  (match s.metaGet astroConfigKey with
   | some d => d != ad
   | none => true)

/-- Modelled from the spec: the invalidation decision — a forced-clear flag
or any digest mismatch triggers clearAll before loading, otherwise prior
entries are retained. -/
def decideInvalidation (force : Bool) (cd ad : String) (s : MutableDataStore) :
    MutableDataStore :=
  if force || digestsMismatch cd ad s then s.clearAll else s

/-- Modelled from the spec: the new digests are recorded immediately after
the invalidation decision, before running loaders. -/
def recordDigests (cd ad : String) (s : MutableDataStore) : MutableDataStore :=
  (s.metaSet contentConfigKey cd).metaSet astroConfigKey ad

/-- Modelled from the spec: one sync pass of the Orchestrator — decide
invalidation from recorded digests and the forced-clear flag, record the new
digests, then run every scheduled loader serially against the store.  The
implementation file packages/astro/src/content/content-layer.ts is absent
from the tree; only its unit tests are. -/
def sync (force : Bool) (cd ad : String) (colls : List CollectionConfig)
    (s : MutableDataStore) : MutableDataStore × List LogEvent :=
  runLoaders colls (recordDigests cd ad (decideInvalidation force cd ad s), [])

/-- C2: a digest mismatch recorded in the metadata store (or a forced-clear
flag) makes the sync pass wipe every collection before any loader runs;
matching digests keep all prior entries for incremental loading. -/
theorem invalidation_decision_correct (force : Bool) (cd ad : String)
    (colls : List CollectionConfig) (s : MutableDataStore) :
    (force = true ∨ digestsMismatch cd ad s = true →
      sync force cd ad colls s = runLoaders colls (recordDigests cd ad s.clearAll, []) ∧
      ∀ c, (s.clearAll).values c = []) ∧
    (force = false → s.metaGet contentConfigKey = some cd →
      s.metaGet astroConfigKey = some ad →
      sync force cd ad colls s = runLoaders colls (recordDigests cd ad s, []) ∧
      ∀ c, (recordDigests cd ad s).values c = s.values c) := by
  constructor
  · intro h
    refine ⟨?_, fun c => rfl⟩
    rcases h with h | h
    · simp [sync, decideInvalidation, h]
    · simp [sync, decideInvalidation, h]
  · intro hf hc ha
    refine ⟨?_, fun c => rfl⟩
    simp [sync, decideInvalidation, digestsMismatch, hf, hc, ha]

def sampleStoreC2 : MutableDataStore :=
  ((MutableDataStore.empty.set "dogs" "beagle"
      ⟨"beagle", .obj [("breed", .str "Beagle")], none, none, none⟩).1.metaSet
    contentConfigKey "digest1").metaSet astroConfigKey "astroDigest1"

theorem invalidation_decision_correct_witness :
    sync false "digest2" "astroDigest1" [] sampleStoreC2 =
      runLoaders [] (recordDigests "digest2" "astroDigest1" sampleStoreC2.clearAll, []) ∧
    sampleStoreC2.clearAll.values "dogs" = [] := by
  have h := (invalidation_decision_correct false "digest2" "astroDigest1" [] sampleStoreC2).1
    (Or.inr (by decide))
  exact ⟨h.1, h.2 "dogs"⟩

/-- Modelled from the spec: the id policy shared by the built-in loaders —
an entry id must be a non-empty string; any other value (a number, null,
the empty string) is invalid.  A valid id is kept exactly as supplied,
special characters included, since it is never used as a filesystem path. -/
def validEntryId : DataValue → Option String
  | .str s => if s = "" then none else some s
  | _ => none

def invalidIdMessage : String :=
  "Collection loader returned an entry with an invalid id. IDs must be non-empty strings."

def duplicateIdWarning (i : String) : String :=
  "Duplicate id \"" ++ i ++ "\" found. The duplicate entry overwrites the previous one."

def schemaErrorMessage (i : String) : String :=
  "Entry " ++ i ++ " data does not match collection schema."

/-- Entry as written by a built-in loader: stored under its id with the
parsed data. -/
def mkEntry (i : String) (d : DataValue) : DataEntry := ⟨i, d, none, none, none⟩

/-- Modelled from the spec: one raw record produced by parsing a loader's
source (its id field may hold any raw value, not necessarily a valid id). -/
structure RawRecord where
  rawId : DataValue
  data : DataValue
deriving Repr, DecidableEq

/-- Modelled from the spec: ingestion of one raw record by a built-in
loader.  A non-string or empty id is rejected with a descriptive error and
nothing is stored; schema-invalid data is rejected with an error and nothing
is stored; otherwise a repeat of an id already written in this pass logs a
duplicate-id warning (last occurrence wins) and the entry is written through
the scoped store.  Returns the effects and the updated list of seen ids. -/
def ingestRecord (sch : Option Schema) (seen : List String) (r : RawRecord) :
    List Effect × List String :=
  match validEntryId r.rawId with
  | none => ([.logError invalidIdMessage], seen)
  | some i =>
      match parseData sch r.data with
      | .error _ => ([.logError (schemaErrorMessage i)], seen)
      | .ok d =>
          ((if i ∈ seen then [.logWarn (duplicateIdWarning i)] else []) ++
            [.setEntry i (mkEntry i d)], seen ++ [i])

/-- Ingestion of a record list in order; a rejected record never aborts the
records after it. -/
def ingestRecords (sch : Option Schema) : List RawRecord → List String → List Effect
  | [], _ => []
  | r :: rs, seen =>
      (ingestRecord sch seen r).1 ++ ingestRecords sch rs (ingestRecord sch seen r).2

/-- Modelled from the spec: the file loader — one file parsed wholesale into
a list of raw records (each expected to carry an id), ingested in order;
duplicate ids within the parsed result are permitted, last occurrence wins,
with a warning identifying the duplicate id. -/
def fileLoader (records : List RawRecord) (sch : Option Schema) : List Effect :=
  ingestRecords sch records []

/-- C3: a loader that writes the same (collection, id) twice in one sync
pass — first entry A, then entry B — leaves get(collection, id) equal to B
after sync (last writer wins, the earlier entry silently replaced), with
exactly one duplicate-id warning logged. -/
theorem duplicate_set_last_writer_wins (c lbl i : String) (A B : DataValue)
    (cd ad : String) (h : i ≠ "") :
    (sync false cd ad [⟨c, lbl, fileLoader [⟨.str i, A⟩, ⟨.str i, B⟩] none⟩]
        MutableDataStore.empty).1.get c i = some (mkEntry i B) ∧
    ((sync false cd ad [⟨c, lbl, fileLoader [⟨.str i, A⟩, ⟨.str i, B⟩] none⟩]
        MutableDataStore.empty).2.filter
      (fun ev => ev.message = duplicateIdWarning i)).length = 1 := by
  have hvalid : validEntryId (.str i) = some i := by simp [validEntryId, h]
  constructor
  · simp [sync, runLoaders, runEffects, fileLoader, ingestRecords, ingestRecord, hvalid,
      parseData, applyEffect, decideInvalidation, recordDigests,
      MutableDataStore.get_set_self]
  · simp [sync, runLoaders, runEffects, fileLoader, ingestRecords, ingestRecord, hvalid,
      parseData, applyEffect, decideInvalidation, recordDigests]

theorem duplicate_set_last_writer_wins_witness :
    (sync false "d" "a"
        [⟨"dogs", "file-loader",
          fileLoader
            [⟨.str "beagle", .obj [("breed", .str "Beagle 1")]⟩,
             ⟨.str "beagle", .obj [("breed", .str "Beagle 2")]⟩] none⟩]
        MutableDataStore.empty).1.get "dogs" "beagle" =
      some (mkEntry "beagle" (.obj [("breed", .str "Beagle 2")])) ∧
    ((sync false "d" "a"
        [⟨"dogs", "file-loader",
          fileLoader
            [⟨.str "beagle", .obj [("breed", .str "Beagle 1")]⟩,
             ⟨.str "beagle", .obj [("breed", .str "Beagle 2")]⟩] none⟩]
        MutableDataStore.empty).2.filter
      (fun ev => ev.message = duplicateIdWarning "beagle")).length = 1 :=
  duplicate_set_last_writer_wins "dogs" "file-loader" "beagle"
    (.obj [("breed", .str "Beagle 1")]) (.obj [("breed", .str "Beagle 2")]) "d" "a"
    (by decide)

/-- Modelled from the spec: the filesystem view the glob loader sees —
whether its base directory exists and which files match the pattern under
it.  The loader implementation (packages/astro/src/content/loaders/) is
absent from the tree; only its unit tests are. -/
structure GlobInput where
  baseExists : Bool
  matchedFiles : List String
deriving Repr, DecidableEq

def missingDirWarning (base : String) : String :=
  "The base directory \"" ++ base ++ "\" " ++ "does not exist" ++ "."

def noFilesWarning (pat base : String) : String :=
  "No files found matching" ++ (" \"" ++ (pat ++ ("\" in directory \"" ++ (base ++ "\""))))

/-- Modelled from the spec: the glob loader — warns and performs no writes
when the base directory does not exist or when the pattern matches zero
files; otherwise derives one raw record per matched file and ingests them
in order.  The function is total: these cases never throw. -/
def globLoader (g : GlobInput) (base pat : String) (entryOf : String → RawRecord)
    (sch : Option Schema) : List Effect :=
  if g.baseExists = false then [.logWarn (missingDirWarning base)]
  else if g.matchedFiles.isEmpty then [.logWarn (noFilesWarning pat base)]
  else ingestRecords sch (g.matchedFiles.map entryOf) []

/-- C9: a glob loader whose base directory is missing, or whose pattern
matches zero files, emits a single warning (containing "does not exist" or
"No files found matching" respectively), performs no store writes — the
collection ends empty — and does not throw (the loader function is total). -/
theorem glob_missing_dir_or_no_files_warns (g : GlobInput) (base pat c lbl : String)
    (entryOf : String → RawRecord) (sch : Option Schema) :
    (g.baseExists = false →
      globLoader g base pat entryOf sch = [.logWarn (missingDirWarning base)] ∧
      (∃ pre post, missingDirWarning base = pre ++ "does not exist" ++ post) ∧
      (runEffects c lbl (globLoader g base pat entryOf sch)
        (MutableDataStore.empty, [])).1 = MutableDataStore.empty) ∧
    (g.baseExists = true → g.matchedFiles = [] →
      globLoader g base pat entryOf sch = [.logWarn (noFilesWarning pat base)] ∧
      (∃ pre post, noFilesWarning pat base = pre ++ "No files found matching" ++ post) ∧
      (runEffects c lbl (globLoader g base pat entryOf sch)
        (MutableDataStore.empty, [])).1 = MutableDataStore.empty) := by
  constructor
  · intro h
    refine ⟨by simp [globLoader, h], ⟨"The base directory \"" ++ base ++ "\" ", ".", rfl⟩, ?_⟩
    simp [globLoader, h, runEffects, applyEffect]
  · intro h he
    refine ⟨by simp [globLoader, h, he],
      ⟨"", " \"" ++ (pat ++ ("\" in directory \"" ++ (base ++ "\""))), rfl⟩, ?_⟩
    simp [globLoader, h, he, runEffects, applyEffect]

theorem glob_missing_dir_or_no_files_warns_witness :
    globLoader ⟨false, []⟩ "src/nonexistent" "*" (fun p => ⟨.str p, .null⟩) none =
      [.logWarn (missingDirWarning "src/nonexistent")] ∧
    globLoader ⟨true, []⟩ "src/data" "nothingmatches/*" (fun p => ⟨.str p, .null⟩) none =
      [.logWarn (noFilesWarning "nothingmatches/*" "src/data")] :=
  ⟨((glob_missing_dir_or_no_files_warns ⟨false, []⟩ "src/nonexistent" "*" "c" "l"
      (fun p => ⟨.str p, .null⟩) none).1 rfl).1,
   ((glob_missing_dir_or_no_files_warns ⟨true, []⟩ "src/data" "nothingmatches/*" "c" "l"
      (fun p => ⟨.str p, .null⟩) none).2 rfl rfl).1⟩

/-- Records that pass the id check and the schema check, with their parsed
data, in ingestion order. -/
def okRecords (sch : Option Schema) (recs : List RawRecord) : List (String × DataValue) :=
  recs.filterMap fun r =>
    (validEntryId r.rawId).bind fun i =>
      match parseData sch r.data with
      | .ok d => some (i, d)
      | .error _ => none

/-- Valid ids carried by a record list, in order. -/
def recordIds (recs : List RawRecord) : List String :=
  recs.filterMap fun r => validEntryId r.rawId

/-- Sequential store writes of parsed records. -/
def applySets (c : String) (pairs : List (String × DataValue)) (s : MutableDataStore) :
    MutableDataStore :=
  pairs.foldl (fun acc p => (acc.set c p.1 (mkEntry p.1 p.2)).1) s

theorem runEffects_append (c lbl : String) (a b : List Effect)
    (st : MutableDataStore × List LogEvent) :
    runEffects c lbl (a ++ b) st = runEffects c lbl b (runEffects c lbl a st) := by
  simp [runEffects, List.foldl_append]

theorem MutableDataStore.get_set_ne (s : MutableDataStore) {c i j : String} (e : DataEntry)
    (h : j ≠ i) : (s.set c j e).1.get c i = s.get c i := by
  simp only [MutableDataStore.set, MutableDataStore.get, alGet_alSet_self, Option.bind]
  cases hc : alGet s.collections c with
  | none => simp [alGet, Ne.symm h, h]
  | some col => simp [alGet_alSet_ne col e (Ne.symm h)]

theorem ingest_store_eq_applySets (c lbl : String) (sch : Option Schema) :
    ∀ (recs : List RawRecord) (seen : List String) (st : MutableDataStore × List LogEvent),
      (runEffects c lbl (ingestRecords sch recs seen) st).1 =
        applySets c (okRecords sch recs) st.1 := by
  intro recs
  induction recs with
  | nil => intro seen st; simp [ingestRecords, okRecords, runEffects, applySets]
  | cons r rest ih =>
      intro seen st
      rw [ingestRecords, runEffects_append, ih]
      rcases hv : validEntryId r.rawId with _ | i
      · simp [ingestRecord, hv, okRecords, List.filterMap_cons, runEffects, applyEffect]
      · rcases hp : parseData sch r.data with es | d
        · simp [ingestRecord, hv, hp, okRecords, List.filterMap_cons, runEffects, applyEffect]
        · by_cases hs : i ∈ seen
          · simp [ingestRecord, hv, hp, hs, okRecords, List.filterMap_cons, runEffects,
              applyEffect, applySets]
          · simp [ingestRecord, hv, hp, hs, okRecords, List.filterMap_cons, runEffects,
              applyEffect, applySets]

theorem applySets_get_notMem (c : String) (pairs : List (String × DataValue))
    (s : MutableDataStore) (i : String) (h : i ∉ pairs.map Prod.fst) :
    (applySets c pairs s).get c i = s.get c i := by
  induction pairs generalizing s with
  | nil => simp [applySets]
  | cons p rest ih =>
      obtain ⟨j, d⟩ := p
      simp only [List.map_cons, List.mem_cons, not_or] at h
      rw [applySets, List.foldl_cons]
      have := ih (s.set c j (mkEntry j d)).1 h.2
      rw [applySets] at this
      rw [this, MutableDataStore.get_set_ne _ _ (fun he => h.1 he.symm)]

theorem applySets_get_mem (c : String) (pairs : List (String × DataValue))
    (s : MutableDataStore) (i : String) (d : DataValue)
    (hnd : (pairs.map Prod.fst).Nodup) (hmem : (i, d) ∈ pairs) :
    (applySets c pairs s).get c i = some (mkEntry i d) := by
  induction pairs generalizing s with
  | nil => simp at hmem
  | cons p rest ih =>
      obtain ⟨j, e⟩ := p
      simp only [List.map_cons, List.nodup_cons] at hnd
      rw [applySets, List.foldl_cons]
      rcases List.mem_cons.1 hmem with heq | hrest
      · injection heq with h1 h2
        subst h1; subst h2
        have hni : i ∉ rest.map Prod.fst := hnd.1
        have := applySets_get_notMem c rest (s.set c i (mkEntry i d)).1 i hni
        rw [applySets] at this
        rw [this, MutableDataStore.get_set_self]
      · have := ih (s.set c j (mkEntry j e)).1 hnd.2 hrest
        rw [applySets] at this
        rw [this]

theorem mem_map_snd_alSet {α : Type} (col : List (String × α)) (j : String) (v a : α)
    (h : a ∈ (alSet col j v).map Prod.snd) : a = v ∨ a ∈ col.map Prod.snd := by
  induction col with
  | nil => simp [alSet] at h; simp [h]
  | cons p rest ih =>
      obtain ⟨k, w⟩ := p
      by_cases hk : k = j
      · simp [alSet, hk] at h
        rcases h with h | h
        · exact Or.inl h
        · exact Or.inr (by simp [h])
      · simp [alSet, hk] at h
        rcases h with h | h
        · exact Or.inr (by simp [h])
        · rcases ih (by simpa using h) with h2 | h2
          · exact Or.inl h2
          · exact Or.inr (by simp [h2])

theorem mem_values_set (s : MutableDataStore) (c j : String) (e a : DataEntry)
    (h : a ∈ (s.set c j e).1.values c) : a = e ∨ a ∈ s.values c := by
  rw [MutableDataStore.set] at h
  simp only [MutableDataStore.values, alGet_alSet_self, Option.getD_some] at h
  cases hc : alGet s.collections c with
  | none =>
      rw [hc] at h
      simp only [Option.getD_none] at h
      rcases mem_map_snd_alSet [] j e a h with h2 | h2
      · exact Or.inl h2
      · simp at h2
  | some col =>
      rw [hc] at h
      simp only [Option.getD_some] at h
      rcases mem_map_snd_alSet col j e a h with h2 | h2
      · exact Or.inl h2
      · exact Or.inr (by simp [MutableDataStore.values, hc, h2])

theorem mem_values_applySets (c : String) (pairs : List (String × DataValue))
    (s : MutableDataStore) (a : DataEntry) (h : a ∈ (applySets c pairs s).values c) :
    a ∈ s.values c ∨ ∃ p ∈ pairs, a = mkEntry p.1 p.2 := by
  induction pairs generalizing s with
  | nil => exact Or.inl (by simpa [applySets] using h)
  | cons p rest ih =>
      obtain ⟨j, d⟩ := p
      rw [applySets, List.foldl_cons] at h
      have h2 : a ∈ (applySets c rest (s.set c j (mkEntry j d)).1).values c := by
        rw [applySets]; exact h
      rcases ih (s.set c j (mkEntry j d)).1 h2 with h3 | h3
      · rcases mem_values_set s c j (mkEntry j d) a h3 with h4 | h4
        · exact Or.inr ⟨(j, d), by simp, h4⟩
        · exact Or.inl h4
      · obtain ⟨q, hq, he⟩ := h3
        exact Or.inr ⟨q, by simp [hq], he⟩

theorem mem_okRecords (sch : Option Schema) (recs : List RawRecord) (i : String)
    (d : DataValue) :
    (i, d) ∈ okRecords sch recs ↔
      ∃ r ∈ recs, validEntryId r.rawId = some i ∧ parseData sch r.data = .ok d := by
  rw [okRecords, List.mem_filterMap]
  constructor
  · rintro ⟨r, hr, hf⟩
    rcases hv : validEntryId r.rawId with _ | j
    · simp [hv] at hf
    · rcases hp : parseData sch r.data with es | e
      · simp [hv, hp] at hf
      · simp only [hv, hp, Option.some_bind] at hf
        injection hf with hf2
        injection hf2 with h1 h2
        subst h1; subst h2
        exact ⟨r, hr, hv, hp⟩
  · rintro ⟨r, hr, hv, hp⟩
    exact ⟨r, hr, by simp [hv, hp]⟩

theorem okIds_subset_recordIds (sch : Option Schema) (recs : List RawRecord) (i : String)
    (h : i ∈ (okRecords sch recs).map Prod.fst) : i ∈ recordIds recs := by
  simp only [List.mem_map] at h
  obtain ⟨⟨j, d⟩, hmem, hj⟩ := h
  subst hj
  obtain ⟨r, hr, hv, hp⟩ := (mem_okRecords sch recs _ d).1 hmem
  rw [recordIds, List.mem_filterMap]
  exact ⟨r, hr, hv⟩

theorem okIds_nodup (sch : Option Schema) (recs : List RawRecord)
    (h : (recordIds recs).Nodup) : ((okRecords sch recs).map Prod.fst).Nodup := by
  induction recs with
  | nil => simp [okRecords]
  | cons r rest ih =>
      rcases hv : validEntryId r.rawId with _ | i
      · have hrec : recordIds (r :: rest) = recordIds rest := by
          simp [recordIds, List.filterMap_cons, hv]
        have hok : okRecords sch (r :: rest) = okRecords sch rest := by
          simp [okRecords, List.filterMap_cons, hv]
        rw [hok]
        exact ih (hrec ▸ h)
      · have hrec : recordIds (r :: rest) = i :: recordIds rest := by
          simp [recordIds, List.filterMap_cons, hv]
        rw [hrec, List.nodup_cons] at h
        rcases hp : parseData sch r.data with es | d
        · have hok : okRecords sch (r :: rest) = okRecords sch rest := by
            simp [okRecords, List.filterMap_cons, hv, hp]
          rw [hok]
          exact ih h.2
        · have hok : okRecords sch (r :: rest) = (i, d) :: okRecords sch rest := by
            simp [okRecords, List.filterMap_cons, hv, hp]
          rw [hok, List.map_cons, List.nodup_cons]
          exact ⟨fun hm => h.1 (okIds_subset_recordIds sch rest i hm), ih h.2⟩

theorem failing_id_notMem_okIds (sch : Option Schema) (recs : List RawRecord)
    (r : RawRecord) (i : String) (es : List (String × String))
    (hnd : (recordIds recs).Nodup) (hr : r ∈ recs) (hv : validEntryId r.rawId = some i)
    (hp : parseData sch r.data = .error es) :
    i ∉ (okRecords sch recs).map Prod.fst := by
  induction recs with
  | nil => simp at hr
  | cons r0 rest ih =>
      rcases List.mem_cons.1 hr with rfl | hr2
      · have hrec : recordIds (r :: rest) = i :: recordIds rest := by
          simp [recordIds, List.filterMap_cons, hv]
        rw [hrec, List.nodup_cons] at hnd
        have hok : okRecords sch (r :: rest) = okRecords sch rest := by
          simp [okRecords, List.filterMap_cons, hv, hp]
        rw [hok]
        exact fun hm => hnd.1 (okIds_subset_recordIds sch rest i hm)
      · rcases hv0 : validEntryId r0.rawId with _ | j
        · have hrec : recordIds (r0 :: rest) = recordIds rest := by
            simp [recordIds, List.filterMap_cons, hv0]
          have hok : okRecords sch (r0 :: rest) = okRecords sch rest := by
            simp [okRecords, List.filterMap_cons, hv0]
          rw [hok]
          exact ih (hrec ▸ hnd) hr2
        · have hrec : recordIds (r0 :: rest) = j :: recordIds rest := by
            simp [recordIds, List.filterMap_cons, hv0]
          rw [hrec, List.nodup_cons] at hnd
          have hji : j ≠ i := by
            intro he
            subst he
            exact hnd.1 (by rw [recordIds, List.mem_filterMap]; exact ⟨r, hr2, hv⟩)
          rcases hp0 : parseData sch r0.data with es0 | d0
          · have hok : okRecords sch (r0 :: rest) = okRecords sch rest := by
              simp [okRecords, List.filterMap_cons, hv0, hp0]
            rw [hok]
            exact ih hnd.2 hr2
          · have hok : okRecords sch (r0 :: rest) = (j, d0) :: okRecords sch rest := by
              simp [okRecords, List.filterMap_cons, hv0, hp0]
            rw [hok, List.map_cons]
            intro hm
            rcases List.mem_cons.1 hm with he | hm2
            · exact hji he.symm
            · exact ih hnd.2 hr2 hm2

/-- C5: an entry whose data fails schema validation in parseData is never
stored — get for its id is absent and no entry with its id appears in
values(collection) — while every other record with valid data, before or
after the failing one, is still stored (no abort-on-first-error).  Stated
for a pass over records with distinct valid ids starting from an empty
store, as in the engine's tests. -/
theorem validation_rejection_no_partial_write (c lbl : String) (sch : Option Schema)
    (recs : List RawRecord) (hnodup : (recordIds recs).Nodup) :
    (∀ r ∈ recs, ∀ i es, validEntryId r.rawId = some i →
        parseData sch r.data = .error es →
        (runEffects c lbl (fileLoader recs sch) (MutableDataStore.empty, [])).1.get c i =
          none ∧
        ∀ e ∈ (runEffects c lbl (fileLoader recs sch) (MutableDataStore.empty, [])).1.values c,
          e.id ≠ i) ∧
    (∀ r ∈ recs, ∀ i d, validEntryId r.rawId = some i →
        parseData sch r.data = .ok d →
        (runEffects c lbl (fileLoader recs sch) (MutableDataStore.empty, [])).1.get c i =
          some (mkEntry i d)) := by
  have hstore : (runEffects c lbl (fileLoader recs sch) (MutableDataStore.empty, [])).1 =
      applySets c (okRecords sch recs) MutableDataStore.empty := by
    rw [fileLoader]; exact ingest_store_eq_applySets c lbl sch recs [] _
  constructor
  · intro r hr i es hv hp
    have hni := failing_id_notMem_okIds sch recs r i es hnodup hr hv hp
    constructor
    · rw [hstore, applySets_get_notMem c _ _ i hni]
      simp [MutableDataStore.get, MutableDataStore.empty, alGet]
    · intro e he
      rw [hstore] at he
      rcases mem_values_applySets c _ _ e he with h2 | h2
      · simp [MutableDataStore.values, MutableDataStore.empty, alGet] at h2
      · obtain ⟨p, hpmem, hpe⟩ := h2
        intro hid
        apply hni
        rw [List.mem_map]
        refine ⟨p, hpmem, ?_⟩
        rw [hpe] at hid
        simpa [mkEntry] using hid
  · intro r hr i d hv hp
    rw [hstore]
    exact applySets_get_mem c _ _ i d (okIds_nodup sch recs hnodup)
      ((mem_okRecords sch recs i d).2 ⟨r, hr, hv, hp⟩)

def sampleSchemaC5 : Schema := .sObject [("title", .sString, none, false)]

def sampleRecsC5 : List RawRecord :=
  [⟨.str "valid-1", .obj [("title", .str "First")]⟩,
   ⟨.str "invalid", .obj [("title", .num 3)]⟩,
   ⟨.str "valid-2", .obj [("title", .str "Second")]⟩]

theorem validation_rejection_no_partial_write_witness :
    (runEffects "items" "ld" (fileLoader sampleRecsC5 (some sampleSchemaC5))
        (MutableDataStore.empty, [])).1.get "items" "invalid" = none ∧
    (runEffects "items" "ld" (fileLoader sampleRecsC5 (some sampleSchemaC5))
        (MutableDataStore.empty, [])).1.get "items" "valid-1" =
      some (mkEntry "valid-1" (.obj [("title", .str "First")])) ∧
    (runEffects "items" "ld" (fileLoader sampleRecsC5 (some sampleSchemaC5))
        (MutableDataStore.empty, [])).1.get "items" "valid-2" =
      some (mkEntry "valid-2" (.obj [("title", .str "Second")])) := by
  have h := validation_rejection_no_partial_write "items" "ld" (some sampleSchemaC5)
    sampleRecsC5 (by decide)
  exact ⟨(h.1 ⟨.str "invalid", .obj [("title", .num 3)]⟩ (by decide) "invalid"
      [("title", "Expected string")] (by decide)
      (by simp [sampleSchemaC5, parseData, parseValue, parseValueFields, alGet, withPath,
        Except.map])).1,
    h.2 ⟨.str "valid-1", .obj [("title", .str "First")]⟩ (by decide) "valid-1"
      (.obj [("title", .str "First")]) (by decide)
      (by simp [sampleSchemaC5, parseData, parseValue, parseValueFields, alGet, Except.map]),
    h.2 ⟨.str "valid-2", .obj [("title", .str "Second")]⟩ (by decide) "valid-2"
      (.obj [("title", .str "Second")]) (by decide)
      (by simp [sampleSchemaC5, parseData, parseValue, parseValueFields, alGet, Except.map])⟩

theorem setEntry_mem_ingestRecord (sch : Option Schema) (seen : List String) (r : RawRecord)
    (j : String) (e : DataEntry) :
    Effect.setEntry j e ∈ (ingestRecord sch seen r).1 ↔
      ∃ d, validEntryId r.rawId = some j ∧ parseData sch r.data = .ok d ∧
        e = mkEntry j d := by
  rcases hv : validEntryId r.rawId with _ | i
  · simp [ingestRecord, hv]
  · rcases hp : parseData sch r.data with es | d
    · simp [ingestRecord, hv, hp]
    · by_cases hs : i ∈ seen <;>
      · simp [ingestRecord, hv, hp, hs, mkEntry, eq_comm, and_assoc]
        rintro rfl
        exact Iff.rfl

theorem setEntry_mem_ingestRecords (sch : Option Schema) :
    ∀ (recs : List RawRecord) (seen : List String) (j : String) (e : DataEntry),
      Effect.setEntry j e ∈ ingestRecords sch recs seen ↔
        ∃ r ∈ recs, ∃ d, validEntryId r.rawId = some j ∧
          parseData sch r.data = .ok d ∧ e = mkEntry j d := by
  intro recs
  induction recs with
  | nil => intro seen j e; simp [ingestRecords]
  | cons r rest ih =>
      intro seen j e
      rw [ingestRecords, List.mem_append, setEntry_mem_ingestRecord, ih,
        List.exists_mem_cons_iff]

theorem invalid_id_logs_error (sch : Option Schema) :
    ∀ (recs : List RawRecord) (seen : List String) (r : RawRecord), r ∈ recs →
      validEntryId r.rawId = none →
      Effect.logError invalidIdMessage ∈ ingestRecords sch recs seen := by
  intro recs
  induction recs with
  | nil => intro seen r h; simp at h
  | cons r0 rest ih =>
      intro seen r hr hv
      rw [ingestRecords, List.mem_append]
      rcases List.mem_cons.1 hr with rfl | hr2
      · exact Or.inl (by simp [ingestRecord, hv])
      · exact Or.inr (ih _ r hr2 hv)

theorem validEntryId_eq_some {v : DataValue} {i : String} (h : validEntryId v = some i) :
    v = .str i ∧ i ≠ "" := by
  cases v with
  | str s =>
      simp only [validEntryId] at h
      by_cases hs : s = ""
      · rw [if_pos hs] at h; exact absurd h (by simp)
      · rw [if_neg hs] at h
        injection h with h2
        subst h2
        exact ⟨rfl, hs⟩
  | num n => exact absurd h (by simp [validEntryId])
  | bool b => exact absurd h (by simp [validEntryId])
  | null => exact absurd h (by simp [validEntryId])
  | date m => exact absurd h (by simp [validEntryId])
  | arr xs => exact absurd h (by simp [validEntryId])
  | obj fs => exact absurd h (by simp [validEntryId])

/-- C8: for the record-ingestion path shared by both built-in loaders, an
entry whose id is not a non-empty string is rejected with a descriptive
error and never stored (every stored entry traces back to a record whose
raw id is a non-empty string), while an entry with a valid non-empty string
id — special characters included — whose data parses is stored under
exactly that id. -/
theorem invalid_ids_rejected_valid_ids_stored (sch : Option Schema) (recs : List RawRecord)
    (seen : List String) :
    (∀ j e, Effect.setEntry j e ∈ ingestRecords sch recs seen →
        ∃ r ∈ recs, r.rawId = .str j ∧ j ≠ "") ∧
    (∀ r ∈ recs, validEntryId r.rawId = none →
        Effect.logError invalidIdMessage ∈ ingestRecords sch recs seen) ∧
    (∀ r ∈ recs, ∀ j d, r.rawId = .str j → j ≠ "" → parseData sch r.data = .ok d →
        Effect.setEntry j (mkEntry j d) ∈ ingestRecords sch recs seen) := by
  refine ⟨?_, fun r hr hv => invalid_id_logs_error sch recs seen r hr hv, ?_⟩
  · intro j e hm
    obtain ⟨r, hr, d, hv, hp, he⟩ := (setEntry_mem_ingestRecords sch recs seen j e).1 hm
    obtain ⟨h1, h2⟩ := validEntryId_eq_some hv
    exact ⟨r, hr, h1, h2⟩
  · intro r hr j d hid hne hp
    refine (setEntry_mem_ingestRecords sch recs seen j (mkEntry j d)).2
      ⟨r, hr, d, ?_, hp, rfl⟩
    simp [hid, validEntryId, hne]

theorem invalid_ids_rejected_valid_ids_stored_witness :
    Effect.setEntry "four%" (mkEntry "four%" (.obj [])) ∈
      ingestRecords none [⟨.str "four%", .obj []⟩, ⟨.num 123, .obj []⟩] [] ∧
    Effect.logError invalidIdMessage ∈
      ingestRecords none [⟨.str "four%", .obj []⟩, ⟨.num 123, .obj []⟩] [] := by
  have h := invalid_ids_rejected_valid_ids_stored none
    [⟨.str "four%", .obj []⟩, ⟨.num 123, .obj []⟩] []
  exact ⟨h.2.2 ⟨.str "four%", .obj []⟩ (by decide) "four%" (.obj []) rfl (by decide) rfl,
    h.2.1 ⟨.num 123, .obj []⟩ (by decide) rfl⟩

/-- Events observed by instrumenting the scheduler: a loader starting, a
loader issuing one store/log effect, a loader completing. -/
inductive TraceEv where
  | start (loader : String)
  | eff (loader : String) (e : Effect)
  | done (loader : String)
deriving Repr, DecidableEq

/-- One loader job on the work queue: its name and its remaining effects. -/
structure Job where
  name : String
  remaining : List Effect
deriving Repr, DecidableEq

/-- State of the work queue: pending jobs, in-flight jobs, and the event
trace so far. -/
structure QueueState where
  pending : List Job
  running : List Job
  trace : List TraceEv
deriving Repr, DecidableEq

/-- Modelled from the spec: the work queue limited to conc in-flight
loaders (the engine fixes conc to one, the line "new PQueue({ concurrency:
1 })").  A pending job may start only while fewer than conc jobs are in
flight; any in-flight job may take its next cooperative step at any moment;
an in-flight job with no remaining work completes.  The free choice among
the steps models asynchronous interleaving. -/
inductive QStep (conc : Nat) : QueueState → QueueState → Prop where
  | start (j : Job) (pend1 pend2 run : List Job) (tr : List TraceEv) :
      run.length < conc →
      QStep conc ⟨pend1 ++ j :: pend2, run, tr⟩
        ⟨pend1 ++ pend2, run ++ [j], tr ++ [.start j.name]⟩
  | progress (j : Job) (e : Effect) (es : List Effect) (run1 run2 pend : List Job)
      (tr : List TraceEv) :
      j.remaining = e :: es →
      QStep conc ⟨pend, run1 ++ j :: run2, tr⟩
        ⟨pend, run1 ++ ⟨j.name, es⟩ :: run2, tr ++ [.eff j.name e]⟩
  | finish (j : Job) (run1 run2 pend : List Job) (tr : List TraceEv) :
      j.remaining = [] →
      QStep conc ⟨pend, run1 ++ j :: run2, tr⟩
        ⟨pend, run1 ++ run2, tr ++ [.done j.name]⟩

/-- All collections scheduled in one sync pass, queued in order. -/
def initQueue (colls : List CollectionConfig) : QueueState :=
  ⟨colls.map (fun cc => ⟨cc.name, cc.effects⟩), [], []⟩

/-- One step of the serialization scanner: tracks which loader has started
and not yet completed; none result means the trace interleaves loaders. -/
def scanStep : Option String → TraceEv → Option (Option String)
  | none, .start n => some (some n)
  | some n, .eff m _ => if m = n then some (some n) else none
  | some n, .done m => if m = n then some none else none
  | _, _ => none

def scanTrace : Option String → List TraceEv → Option (Option String)
  | st, [] => some st
  | st, ev :: rest =>
      match scanStep st ev with
      | none => none
      | some st2 => scanTrace st2 rest

/-- A trace is serialized when every event between a loader's start and its
completion belongs to that loader, with no second loader starting in
between. -/
def serializedTrace (tr : List TraceEv) : Bool :=
  (scanTrace none tr).isSome

theorem scanTrace_snoc (st : Option String) (tr : List TraceEv) (ev : TraceEv) :
    scanTrace st (tr ++ [ev]) = (scanTrace st tr).bind fun st2 => scanStep st2 ev := by
  induction tr generalizing st with
  | nil => cases h : scanStep st ev <;> simp [scanTrace, h]
  | cons ev0 rest ih => cases h : scanStep st ev0 <;> simp [scanTrace, h, ih]

/-- Invariant of the concurrency-one queue: at most one in-flight loader,
and the trace scans cleanly with the in-flight loader as the open block. -/
def queueInv (st : QueueState) : Prop :=
  st.running.length ≤ 1 ∧
    scanTrace none st.trace = some (st.running.head?.map Job.name)

theorem queueInv_init (colls : List CollectionConfig) : queueInv (initQueue colls) := by
  constructor <;> simp [initQueue, scanTrace]

theorem queueInv_step {s1 s2 : QueueState} (h : QStep 1 s1 s2) (hinv : queueInv s1) :
    queueInv s2 := by
  obtain ⟨hlen, hscan⟩ := hinv
  cases h with
  | start j pend1 pend2 run tr hrun =>
      have hr : run = [] := List.length_eq_zero.1 (Nat.lt_one_iff.1 hrun)
      subst hr
      simp only [queueInv] at *
      constructor
      · simp
      · rw [scanTrace_snoc]
        rw [hscan]
        simp [scanStep]
  | progress j e es run1 run2 pend tr hj =>
      simp only [queueInv] at *
      have h1 : run1 = [] ∧ run2 = [] := by
        rcases run1 with _ | ⟨a, rest1⟩
        · rcases run2 with _ | ⟨b, rest2⟩
          · exact ⟨rfl, rfl⟩
          · simp at hlen
        · simp at hlen
      obtain ⟨hr1, hr2⟩ := h1
      subst hr1; subst hr2
      constructor
      · simp
      · rw [scanTrace_snoc]
        rw [hscan]
        simp [scanStep]
  | finish j run1 run2 pend tr hj =>
      simp only [queueInv] at *
      have h1 : run1 = [] ∧ run2 = [] := by
        rcases run1 with _ | ⟨a, rest1⟩
        · rcases run2 with _ | ⟨b, rest2⟩
          · exact ⟨rfl, rfl⟩
          · simp at hlen
        · simp at hlen
      obtain ⟨hr1, hr2⟩ := h1
      subst hr1; subst hr2
      constructor
      · simp
      · rw [scanTrace_snoc]
        rw [hscan]
        simp [scanStep]

/-- C6: with the work queue's concurrency fixed at one in-flight loader,
every reachable scheduler state over the collections of a sync pass has at
most one loader in flight and a serialized event trace: one collection's
loader fully completes before the next collection's loader begins, so no
two loaders ever execute overlapping store-mutating code. -/
theorem queue_concurrency_one_serializes (colls : List CollectionConfig) (st : QueueState)
    (h : Relation.ReflTransGen (QStep 1) (initQueue colls) st) :
    st.running.length ≤ 1 ∧ serializedTrace st.trace = true := by
  have hinv : queueInv st := by
    induction h with
    | refl => exact queueInv_init colls
    | tail h1 h2 ih => exact queueInv_step h2 ih
  exact ⟨hinv.1, by simp [serializedTrace, hinv.2]⟩

def dogsJobC6 : Job := ⟨"dogs", [.setEntry "a" (mkEntry "a" .null)]⟩

def catsJobC6 : Job := ⟨"cats", []⟩

def collsC6 : List CollectionConfig :=
  [⟨"dogs", "dogs-loader", [.setEntry "a" (mkEntry "a" .null)]⟩,
   ⟨"cats", "cats-loader", []⟩]

def finalC6 : QueueState :=
  ⟨[], [catsJobC6],
   [.start "dogs", .eff "dogs" (.setEntry "a" (mkEntry "a" .null)), .done "dogs",
    .start "cats"]⟩

theorem queue_concurrency_one_serializes_witness :
    finalC6.running.length ≤ 1 ∧ serializedTrace finalC6.trace = true :=
  queue_concurrency_one_serializes collsC6 finalC6
    (Relation.ReflTransGen.head
      (QStep.start dogsJobC6 [] [catsJobC6] [] [] (by decide))
      (Relation.ReflTransGen.head
        (QStep.progress dogsJobC6 (.setEntry "a" (mkEntry "a" .null)) [] [] []
          [catsJobC6] [.start "dogs"] rfl)
        (Relation.ReflTransGen.head
          (QStep.finish ⟨"dogs", []⟩ [] [] [catsJobC6]
            [.start "dogs", .eff "dogs" (.setEntry "a" (mkEntry "a" .null))] rfl)
          (Relation.ReflTransGen.head
            (QStep.start catsJobC6 [] [] []
              [.start "dogs", .eff "dogs" (.setEntry "a" (mkEntry "a" .null)),
               .done "dogs"] (by decide))
            Relation.ReflTransGen.refl))))
